import Mathlib

/-!
Verification of the opencode-manager control-plane.

The definitions below shallowly embed the backend entry point
(`backend/src/index.ts`) and, for the core components whose implementation
files are not part of the sources at hand (ManagedProcess Supervisor, Proxy,
Event Aggregator, IPC Bridge / Auth Broker), models built from the design
document. Each spec-modelled definition is marked as such in its doc comment.
-/

namespace OpencodeManager

/-! ## Process-wide shutdown handler (backend/src/index.ts, `shutdown`)

The entry point installs `shutdown` for both SIGTERM and SIGINT:

```
let isShuttingDown = false;
const shutdown = async (signal) => {
  if (isShuttingDown) return;
  isShuttingDown = true;
  ... sseAggregator.shutdown(); if (ipcServer) ipcServer.dispose();
  await opencodeServerManager.stop(); ... process.exit(0);
};
```

The guard check and the flag assignment run synchronously before the first
await, so on the single-threaded event loop they form an atomic test-and-set;
we model one handler invocation as one atomic step that appends the teardown
actions to a log when the flag was clear. -/

/-- The teardown actions performed by `shutdown`, in source order. -/
inductive TeardownAction where
  | stopSSE
  | disposeIPC
  | stopServer
  | exitProcess
  deriving DecidableEq, Repr

/-- State observed by the shutdown handler: the `isShuttingDown` flag and a
log of teardown actions executed so far. -/
structure ShutdownState where
  isShuttingDown : Bool
  log : List TeardownAction
  deriving DecidableEq, Repr

/-- Initial state at process start: flag clear, nothing torn down. -/
def ShutdownState.init : ShutdownState := { isShuttingDown := false, log := [] }

/-- The teardown sequence: stop the SSE aggregator, dispose the IPC server
when one was created, stop the OpenCode server, then exit. -/
def teardownSeq (hasIPC : Bool) : List TeardownAction :=
  [TeardownAction.stopSSE] ++
    (if hasIPC then [TeardownAction.disposeIPC] else []) ++
    [TeardownAction.stopServer, TeardownAction.exitProcess]

/-- One invocation of the `shutdown` handler: if `isShuttingDown` is already
set it returns immediately, otherwise it sets the flag and runs the teardown
sequence. The signal name is only logged by the source, so it does not appear
in the state. -/
def shutdown (hasIPC : Bool) (s : ShutdownState) : ShutdownState :=
  if s.isShuttingDown then s
  else { isShuttingDown := true, log := s.log ++ teardownSeq hasIPC }

/-- Deliver a sequence of SIGTERM/SIGINT signals, each invoking `shutdown`. -/
def runSignals (hasIPC : Bool) (sigs : List Unit) (s : ShutdownState) :
    ShutdownState :=
  sigs.foldl (fun st _ => shutdown hasIPC st) s

lemma shutdown_of_shuttingDown (hasIPC : Bool) (s : ShutdownState)
    (h : s.isShuttingDown = true) : shutdown hasIPC s = s := by
  simp [shutdown, h]

lemma runSignals_of_shuttingDown (hasIPC : Bool) (sigs : List Unit)
    (s : ShutdownState) (h : s.isShuttingDown = true) :
    runSignals hasIPC sigs s = s := by
  induction sigs with
  | nil => rfl
  | cons a t ih =>
      simp only [runSignals, List.foldl_cons] at *
      rw [shutdown_of_shuttingDown hasIPC s h, ih]

/-- C9: the shutdown handler is idempotent. For any number of delivered
signals, the teardown sequence executes at most once: no signals leave the
state untouched, and one or more signals produce exactly one teardown
sequence in the log, after which every further invocation returns
immediately without changing the state. -/
theorem shutdown_idempotent (hasIPC : Bool) (sigs : List Unit)
    (h : sigs ≠ []) :
    (runSignals hasIPC sigs ShutdownState.init).log = teardownSeq hasIPC ∧
    (runSignals hasIPC sigs ShutdownState.init).isShuttingDown = true ∧
    shutdown hasIPC (runSignals hasIPC sigs ShutdownState.init) =
      runSignals hasIPC sigs ShutdownState.init := by
  obtain ⟨a, t, rfl⟩ := List.exists_cons_of_ne_nil h
  have hfirst : shutdown hasIPC ShutdownState.init =
      { isShuttingDown := true, log := teardownSeq hasIPC } := by
    simp [shutdown, ShutdownState.init]
  have hrun : runSignals hasIPC (a :: t) ShutdownState.init =
      { isShuttingDown := true, log := teardownSeq hasIPC } := by
    simp only [runSignals, List.foldl_cons]
    rw [hfirst]
    exact runSignals_of_shuttingDown hasIPC t _ rfl
  refine ⟨?_, ?_, ?_⟩
  · rw [hrun]
  · rw [hrun]
  · rw [hrun]
    exact shutdown_of_shuttingDown hasIPC _ rfl

/-- Witness for C9: three signals against a state with an IPC server execute
the teardown exactly once. -/
theorem shutdown_idempotent_witness :
    (runSignals true [(), (), ()] ShutdownState.init).log = teardownSeq true ∧
    (runSignals true [(), (), ()] ShutdownState.init).isShuttingDown = true ∧
    shutdown true (runSignals true [(), (), ()] ShutdownState.init) =
      runSignals true [(), (), ()] ShutdownState.init :=
  shutdown_idempotent true [(), (), ()] (by decide)

/-! ## CORS origin resolver (backend/src/index.ts, cors origin callback)

```
origin: (origin) => {
  const trustedOrigins = ENV.AUTH.TRUSTED_ORIGINS.split(",").map((o) => o.trim());
  if (!origin) return trustedOrigins[0];
  if (trustedOrigins.includes(origin)) return origin;
  return trustedOrigins[0];
}
```

JavaScript's `String.prototype.split(",")` always yields at least one piece
(an empty string splits to `[""]`), `trim` strips whitespace from both ends,
and a missing `Origin` header reaches the callback as the empty string, which
is falsy. The embedding mirrors these semantics over `List Char`. -/

/-- JavaScript `str.split(",")` over the character list: comma-separated
pieces, at least one piece always. -/
def splitCommaChars : List Char → List String
  | [] => [""]
  | c :: rest =>
      let r := splitCommaChars rest
      if c = ',' then "" :: r
      else
        match r with
        | [] => [String.mk [c]]
        | h :: t => String.mk (c :: h.data) :: t

/-- JavaScript `str.split(",")`. -/
def splitComma (s : String) : List String := splitCommaChars s.data

/-- JavaScript `str.trim()`: strip whitespace from both ends. -/
def jsTrim (s : String) : String :=
  String.mk
    (((s.data.dropWhile Char.isWhitespace).reverse.dropWhile
        Char.isWhitespace).reverse)

/-- `ENV.AUTH.TRUSTED_ORIGINS.split(",").map((o) => o.trim())`. -/
def trustedOriginsList (raw : String) : List String :=
  (splitComma raw).map jsTrim

/-- The cors `origin` callback: echo a trusted request origin, otherwise fall
back to the first configured trusted origin (also for a missing header, which
arrives as `""`). -/
def corsOrigin (raw origin : String) : String :=
  let trustedOrigins := trustedOriginsList raw
  if origin = "" then trustedOrigins.headD ""
  else if origin ∈ trustedOrigins then origin
  else trustedOrigins.headD ""

lemma splitCommaChars_ne_nil : ∀ cs : List Char, splitCommaChars cs ≠ [] := by
  intro cs
  induction cs with
  | nil => simp [splitCommaChars]
  | cons c rest ih =>
      simp only [splitCommaChars]
      by_cases hc : c = ','
      · simp [hc]
      · simp only [hc, if_false]
        cases hr : splitCommaChars rest with
        | nil => exact absurd hr ih
        | cons h t => simp

lemma trustedOriginsList_ne_nil (raw : String) :
    trustedOriginsList raw ≠ [] := by
  simp only [trustedOriginsList, ne_eq, List.map_eq_nil_iff]
  exact splitCommaChars_ne_nil raw.data

lemma headD_mem_of_ne_nil {α : Type} (l : List α) (d : α) (h : l ≠ []) :
    l.headD d ∈ l := by
  cases l with
  | nil => exact absurd rfl h
  | cons a t => simp [List.headD]

/-- C10: the CORS origin resolver always answers with a member of the
configured trusted-origins list: a present origin that appears in the
trimmed `TRUSTED_ORIGINS` entries is echoed back unchanged, and a missing
(empty) or untrusted origin gets the first trusted entry instead, so an
untrusted origin is never reflected. -/
theorem corsOrigin_trusted (raw origin : String) :
    corsOrigin raw origin ∈ trustedOriginsList raw ∧
    (origin ≠ "" → origin ∈ trustedOriginsList raw →
      corsOrigin raw origin = origin) ∧
    ((origin = "" ∨ origin ∉ trustedOriginsList raw) →
      corsOrigin raw origin = (trustedOriginsList raw).headD "") := by
  have hne := trustedOriginsList_ne_nil raw
  have hhead := headD_mem_of_ne_nil (trustedOriginsList raw) "" hne
  refine ⟨?_, ?_, ?_⟩
  · by_cases h0 : origin = ""
    · simpa [corsOrigin, h0] using hhead
    · by_cases hmem : origin ∈ trustedOriginsList raw
      · simp [corsOrigin, h0, hmem]
      · simpa [corsOrigin, h0, hmem] using hhead
  · intro h0 hmem
    simp [corsOrigin, h0, hmem]
  · rintro (h0 | hmem)
    · simp [corsOrigin, h0]
    · by_cases h0 : origin = ""
      · simp [corsOrigin, h0]
      · simp [corsOrigin, h0, hmem]

/-- Witness for C10 on a concrete configuration: a trusted origin (after the
configured entries are trimmed) is echoed, an untrusted one falls back to the
first trusted entry. -/
theorem corsOrigin_trusted_witness :
    corsOrigin "https://a.example, https://b.example" "https://b.example" =
      "https://b.example" ∧
    corsOrigin "https://a.example, https://b.example" "https://evil.example" ∈
      trustedOriginsList "https://a.example, https://b.example" :=
  ⟨(corsOrigin_trusted "https://a.example, https://b.example"
      "https://b.example").2.1 (by decide) (by decide),
    (corsOrigin_trusted "https://a.example, https://b.example"
      "https://evil.example").1⟩

/-! ## ManagedProcess Supervisor and Proxy

Modelled from the spec: the implementation files
(`backend/src/services/opencode-single-server.ts`,
`backend/src/services/proxy.ts`) are not among the sources at hand — only
their call sites in `backend/src/index.ts` are — so the lifecycle state
machine, `getEndpoint()` and the proxy's fail-fast path are modelled from
§3 "ManagedProcess", §4.1 and §4.2 of the design document. -/

/-- Lifecycle state of the supervised process (spec §3,
`Stopped | Starting | Ready | Crashed | Stopping`). -/
inductive SupState where
  | stopped
  | starting
  | ready
  | crashed
  | stopping
  deriving DecidableEq, Repr

/-- Errors of the supervisor/proxy taxonomy relevant here (spec §7). -/
inductive SupError where
  | notReady
  deriving DecidableEq, Repr

/-- Modelled from the spec: the ManagedProcess Supervisor's observable
state — lifecycle state plus the recorded endpoint. -/
structure Supervisor where
  state : SupState
  host : String
  port : Nat
  deriving DecidableEq, Repr

/-- Modelled from the spec (§4.1): `getEndpoint()` returns the current
`(host, port)` only when state is `Ready`; otherwise fails with `NotReady`. -/
def getEndpoint (sup : Supervisor) : Except SupError (String × Nat) :=
  if sup.state = SupState.ready then Except.ok (sup.host, sup.port)
  else Except.error SupError.notReady

/-- Outcome of one proxied request: the response and whether an upstream
connection was attempted. -/
inductive ProxyResponse where
  | upstreamNotReady
  | forwarded (host : String) (port : Nat)
  deriving DecidableEq, Repr

structure ProxyOutcome where
  response : ProxyResponse
  upstreamAttempted : Bool
  deriving DecidableEq, Repr

/-- Modelled from the spec (§4.2): `forward(request)` resolves the endpoint
via the Supervisor and fails fast with `UpstreamNotReady` — attempting no
upstream connection — when it is unavailable; otherwise it opens a
connection to the endpoint and streams the request through. -/
def forward (sup : Supervisor) : ProxyOutcome :=
  match getEndpoint sup with
  | Except.error _ =>
      { response := ProxyResponse.upstreamNotReady, upstreamAttempted := false }
  | Except.ok (h, p) =>
      { response := ProxyResponse.forwarded h p, upstreamAttempted := true }

/-- C3: whenever the Supervisor is not `Ready`, `getEndpoint()` fails with
`NotReady`, and a client request entering the Proxy fails fast with
`UpstreamNotReady` without any upstream connection being attempted. -/
theorem notReady_failfast (sup : Supervisor) (h : sup.state ≠ SupState.ready) :
    getEndpoint sup = Except.error SupError.notReady ∧
    (forward sup).response = ProxyResponse.upstreamNotReady ∧
    (forward sup).upstreamAttempted = false := by
  have hep : getEndpoint sup = Except.error SupError.notReady := by
    simp [getEndpoint, h]
  refine ⟨hep, ?_, ?_⟩ <;> simp [forward, hep]

/-- Witness for C3: a supervisor still starting refuses the endpoint and the
proxy fails fast without touching the upstream. -/
theorem notReady_failfast_witness :
    getEndpoint ⟨SupState.starting, "127.0.0.1", 5551⟩ =
      Except.error SupError.notReady ∧
    (forward ⟨SupState.starting, "127.0.0.1", 5551⟩).response =
      ProxyResponse.upstreamNotReady ∧
    (forward ⟨SupState.starting, "127.0.0.1", 5551⟩).upstreamAttempted =
      false :=
  notReady_failfast ⟨SupState.starting, "127.0.0.1", 5551⟩ (by decide)

/-! ### Lifecycle call sequences (C8)

Modelled from the spec (§4.1): `start()` succeeds only from `Stopped` or
`Crashed` (a new `start` is rejected while state is `Starting` or `Ready`,
leaving the state unchanged), and once settled a successful start has
reached `Ready`; `stop()` always transitions to `Stopped` on exit whatever
path was taken. Each call is modelled as one settled atomic transition
(`start()`/`stop()` are mutually exclusive via the lifecycle lock). -/

inductive LifecycleCall where
  | start
  | stop
  deriving DecidableEq, Repr

/-- One settled lifecycle call. -/
def applyCall : LifecycleCall → SupState → SupState
  | LifecycleCall.start, s =>
      if s = SupState.stopped ∨ s = SupState.crashed then SupState.ready else s
  | LifecycleCall.stop, _ => SupState.stopped

/-- Run a sequence of lifecycle calls. -/
def runCalls (calls : List LifecycleCall) (s : SupState) : SupState :=
  calls.foldl (fun st c => applyCall c st) s

/-- A state that is not in the middle of a lifecycle transition. -/
def SupSettled (s : SupState) : Prop :=
  s ≠ SupState.starting ∧ s ≠ SupState.stopping

lemma applyCall_const (c : LifecycleCall) (s t : SupState)
    (hs : SupSettled s) (ht : SupSettled t) : applyCall c s = applyCall c t := by
  obtain ⟨hs1, hs2⟩ := hs
  obtain ⟨ht1, ht2⟩ := ht
  cases c <;> cases s <;> cases t <;> simp_all [applyCall]

lemma supSettled_applyCall (c : LifecycleCall) (s : SupState)
    (hs : SupSettled s) : SupSettled (applyCall c s) := by
  obtain ⟨hs1, hs2⟩ := hs
  cases c <;> cases s <;> simp_all [applyCall, SupSettled]

lemma runCalls_const (calls : List LifecycleCall) (s t : SupState)
    (hne : calls ≠ []) (hs : SupSettled s) (ht : SupSettled t) :
    runCalls calls s = runCalls calls t := by
  obtain ⟨c, rest, rfl⟩ := List.exists_cons_of_ne_nil hne
  simp only [runCalls, List.foldl_cons]
  rw [applyCall_const c s t hs ht]

lemma runCalls_drop (calls : List LifecycleCall) (s : SupState)
    (hs : SupSettled s) :
    runCalls calls s = runCalls (calls.drop (calls.length - 2)) s := by
  induction calls generalizing s with
  | nil => rfl
  | cons c rest ih =>
      by_cases hlen : rest.length ≤ 1
      · have : (c :: rest).length - 2 = 0 := by
          simp only [List.length_cons]; omega
        rw [this, List.drop_zero]
      · have h2 : 2 ≤ rest.length := by omega
        have hdropcons : (c :: rest).drop ((c :: rest).length - 2) =
            rest.drop (rest.length - 2) := by
          have h1 : (c :: rest).length - 2 = (rest.length - 2) + 1 := by
            simp only [List.length_cons]; omega
          rw [h1, List.drop_succ_cons]
        rw [hdropcons]
        have hstep : runCalls (c :: rest) s = runCalls rest (applyCall c s) :=
          rfl
        rw [hstep, ih (applyCall c s) (supSettled_applyCall c s hs)]
        apply runCalls_const
        · have : (rest.drop (rest.length - 2)).length = 2 := by
            rw [List.length_drop]; omega
          intro hemp
          rw [hemp] at this
          simp at this
        · exact supSettled_applyCall c s hs
        · exact hs

/-- C8: for every finite sequence of `start()`/`stop()` calls issued from a
settled state, the state after the sequence equals the state reached by
replaying only the final start/stop pair; and a `start()` issued while the
state is `Starting` or `Ready` is rejected and leaves the state unchanged. -/
theorem supervisor_last_pair (s : SupState) (calls : List LifecycleCall)
    (h : s ≠ SupState.starting ∧ s ≠ SupState.stopping) :
    runCalls calls s = runCalls (calls.drop (calls.length - 2)) s ∧
    applyCall LifecycleCall.start SupState.starting = SupState.starting ∧
    applyCall LifecycleCall.start SupState.ready = SupState.ready :=
  ⟨runCalls_drop calls s h, rfl, by simp [applyCall]⟩

/-- Witness for C8: from `Stopped`, a five-call toggle sequence ends in the
same state as its final two calls alone. -/
theorem supervisor_last_pair_witness :
    runCalls
        [LifecycleCall.start, LifecycleCall.stop, LifecycleCall.start,
          LifecycleCall.stop, LifecycleCall.start] SupState.stopped =
      runCalls [LifecycleCall.stop, LifecycleCall.start] SupState.stopped ∧
    applyCall LifecycleCall.start SupState.starting = SupState.starting ∧
    applyCall LifecycleCall.start SupState.ready = SupState.ready := by
  have h := supervisor_last_pair SupState.stopped
    [LifecycleCall.start, LifecycleCall.stop, LifecycleCall.start,
      LifecycleCall.stop, LifecycleCall.start] (by decide)
  exact h

/-! ## IPC Bridge and Auth Broker

Modelled from the spec: the implementation files
(`backend/src/ipc/ipcServer.ts`, `backend/src/services/git-auth.ts`) are not
among the sources at hand — only their call sites in `backend/src/index.ts`
are — so the pending-request table and its `create`/`resolve`/`expire`
operations are modelled from §3 "PendingAuthRequest", §4.4 and §7 of the
design document.

A `PendingAuthRequest` is destroyed immediately after the waiting connection
is unblocked, so a correlation id is *pending* exactly while its result slot
is unwritten; a delivery — the one write to the result slot, serialized back
to the blocked helper — is recorded in an append-only log, and published
events in another. -/

/-- Decision returned to a waiting helper. -/
inductive Decision where
  | allow
  | deny
  deriving DecidableEq, Repr

/-- Events published into the aggregator's fan-out by the Auth Broker /
IPC Bridge, each carrying the correlation id of the prompt. -/
inductive AuthEvent where
  | promptEvent (cid : Nat)
  | completionEvent (cid : Nat)
  | timeoutEvent (cid : Nat)
  deriving DecidableEq, Repr

/-- Modelled from the spec: the IPC Bridge's observable state — the pending
correlation ids (exactly one outstanding entry per id), the append-only log
of decisions delivered to waiting helpers, and the published events. -/
structure BridgeState where
  pending : List Nat
  delivered : List (Nat × Decision)
  events : List AuthEvent
  deriving DecidableEq, Repr

def BridgeState.init : BridgeState := { pending := [], delivered := [], events := [] }

/-- The `create` / `resolve` / `expire` operations through which the Auth
Broker interacts with the Bridge-owned table (spec §3, ownership rule). -/
inductive BridgeOp where
  | create (cid : Nat)
  | resolve (cid : Nat) (d : Decision)
  | timeout (cid : Nat)
  deriving DecidableEq, Repr

/-- Modelled from the spec (§4.4): `create` inserts a fresh entry — the
correlation id is unique, generated at creation, so an id that is pending or
was ever delivered is never handed to `create` again (such a call is a
no-op in the model) — and publishes the prompt event; `resolve` on a pending
id writes the decision, unblocks the helper with it and publishes a
completion event, while on an unknown (already resolved or timed-out) id it
is a no-op that is only logged; `timeout` on a pending id unblocks the
helper with the fail-closed `deny` and publishes a timeout event carrying
the same correlation id. -/
def applyOp (op : BridgeOp) (s : BridgeState) : BridgeState :=
  match op with
  | BridgeOp.create cid =>
      if cid ∈ s.pending ∨ cid ∈ s.delivered.map Prod.fst then s
      else { s with pending := cid :: s.pending,
                    events := s.events ++ [AuthEvent.promptEvent cid] }
  | BridgeOp.resolve cid d =>
      if cid ∈ s.pending then
        { pending := s.pending.filter (· ≠ cid),
          delivered := s.delivered ++ [(cid, d)],
          events := s.events ++ [AuthEvent.completionEvent cid] }
      else s
  | BridgeOp.timeout cid =>
      if cid ∈ s.pending then
        { pending := s.pending.filter (· ≠ cid),
          delivered := s.delivered ++ [(cid, Decision.deny)],
          events := s.events ++ [AuthEvent.timeoutEvent cid] }
      else s

/-- Run a sequence of bridge operations from the empty table. -/
def runOps (ops : List BridgeOp) : BridgeState :=
  ops.foldl (fun st op => applyOp op st) BridgeState.init

/-- The invariant tying deliveries to the pending table: each correlation id
is delivered to at most once, and a delivered id is no longer pending. -/
def BridgeInv (s : BridgeState) : Prop :=
  (s.delivered.map Prod.fst).Nodup ∧
    ∀ c ∈ s.delivered.map Prod.fst, c ∉ s.pending

lemma bridgeInv_init : BridgeInv BridgeState.init := by
  constructor <;> simp [BridgeState.init]

lemma bridgeInv_deliver (s : BridgeState) (cid : Nat) (d : Decision)
    (evs : List AuthEvent) (hc : cid ∈ s.pending) (h : BridgeInv s) :
    BridgeInv
      { pending := s.pending.filter (· ≠ cid),
        delivered := s.delivered ++ [(cid, d)], events := evs } := by
  obtain ⟨hnd, hdis⟩ := h
  constructor
  · simp only [List.map_append, List.map_cons, List.map_nil]
    rw [List.nodup_append]
    refine ⟨hnd, by simp, ?_⟩
    intro a ha hb
    simp only [List.mem_singleton] at hb
    subst hb
    exact hdis a ha hc
  · intro c hcmem
    simp only [List.map_append, List.map_cons, List.map_nil, List.mem_append,
      List.mem_singleton] at hcmem
    intro hcp
    rw [List.mem_filter] at hcp
    rcases hcmem with hcmem | rfl
    · exact hdis c hcmem hcp.1
    · simp at hcp
lemma bridgeInv_applyOp (op : BridgeOp) (s : BridgeState)
    (h : BridgeInv s) : BridgeInv (applyOp op s) := by
  cases op with
  | create cid =>
      by_cases hc : cid ∈ s.pending ∨ cid ∈ s.delivered.map Prod.fst
      · simpa [applyOp, if_pos hc] using h
      · obtain ⟨hnd, hdis⟩ := h
        push_neg at hc
        refine ⟨by simpa [applyOp, hc.1, hc.2] using hnd, ?_⟩
        intro c hcmem
        simp only [applyOp, hc.1, hc.2, or_self, if_false, List.mem_cons,
          not_or] at hcmem ⊢
        constructor
        · rintro rfl
          exact hc.2 hcmem
        · exact hdis c hcmem
  | resolve cid d =>
      by_cases hc : cid ∈ s.pending
      · simpa [applyOp, hc] using bridgeInv_deliver s cid d
          (s.events ++ [AuthEvent.completionEvent cid]) hc h
      · simpa [applyOp, hc] using h
  | timeout cid =>
      by_cases hc : cid ∈ s.pending
      · simpa [applyOp, hc] using bridgeInv_deliver s cid Decision.deny
          (s.events ++ [AuthEvent.timeoutEvent cid]) hc h
      · simpa [applyOp, hc] using h

lemma bridgeInv_runOps (ops : List BridgeOp) : BridgeInv (runOps ops) := by
  have : ∀ s : BridgeState, BridgeInv s →
      BridgeInv (ops.foldl (fun st op => applyOp op st) s) := by
    induction ops with
    | nil => intro s hs; exact hs
    | cons op rest ih =>
        intro s hs
        exact ih (applyOp op s) (bridgeInv_applyOp op s hs)
  exact this BridgeState.init bridgeInv_init

lemma resolve_noop_of_not_pending (cid : Nat) (d : Decision) (s : BridgeState)
    (h : cid ∉ s.pending) : applyOp (BridgeOp.resolve cid d) s = s := by
  simp [applyOp, h]

/-- C1: the result slot of a PendingAuthRequest is written at most once. In
every state reachable by `create`/`resolve`/`expire` operations, each
correlation id has at most one delivered decision, and once an id has been
delivered — by whichever of resolve and timeout came first — any later or
duplicate `resolve` on it is a no-op that leaves the whole state, in
particular the already-delivered decision, unchanged. -/
theorem result_slot_written_once (ops : List BridgeOp) :
    ((runOps ops).delivered.map Prod.fst).Nodup ∧
    ∀ cid d d', (cid, d) ∈ (runOps ops).delivered →
      applyOp (BridgeOp.resolve cid d') (runOps ops) = runOps ops := by
  obtain ⟨hnd, hdis⟩ := bridgeInv_runOps ops
  refine ⟨hnd, ?_⟩
  intro cid d d' hmem
  apply resolve_noop_of_not_pending
  exact hdis cid (List.mem_map_of_mem Prod.fst hmem)

/-- Witness for C1: after creating id 1 and resolving it to `allow`, a
duplicate resolve with `deny` changes nothing. -/
theorem result_slot_written_once_witness :
    ((runOps [BridgeOp.create 1, BridgeOp.resolve 1 Decision.allow]).delivered.map
        Prod.fst).Nodup ∧
    applyOp (BridgeOp.resolve 1 Decision.deny)
        (runOps [BridgeOp.create 1, BridgeOp.resolve 1 Decision.allow]) =
      runOps [BridgeOp.create 1, BridgeOp.resolve 1 Decision.allow] :=
  ⟨(result_slot_written_once
      [BridgeOp.create 1, BridgeOp.resolve 1 Decision.allow]).1,
    (result_slot_written_once
      [BridgeOp.create 1, BridgeOp.resolve 1 Decision.allow]).2
      1 Decision.allow Decision.deny (by decide)⟩

/-- C2: when the deadline of a pending request elapses with no resolve call,
the bridge unblocks the waiting helper with the fail-closed `deny` decision
and publishes a timeout event carrying the same correlation id. -/
theorem timeout_fail_closed (s : BridgeState) (cid : Nat)
    (h : cid ∈ s.pending) :
    (applyOp (BridgeOp.timeout cid) s).delivered =
      s.delivered ++ [(cid, Decision.deny)] ∧
    (applyOp (BridgeOp.timeout cid) s).events =
      s.events ++ [AuthEvent.timeoutEvent cid] ∧
    cid ∉ (applyOp (BridgeOp.timeout cid) s).pending := by
  refine ⟨by simp [applyOp, h], by simp [applyOp, h], ?_⟩
  simp [applyOp, h, List.mem_filter]

/-- Witness for C2: a freshly created host-key-trust prompt with id 7 whose
deadline elapses is delivered `deny` and a timeout event for id 7 is
published. -/
theorem timeout_fail_closed_witness :
    (applyOp (BridgeOp.timeout 7) (runOps [BridgeOp.create 7])).delivered =
      (runOps [BridgeOp.create 7]).delivered ++ [(7, Decision.deny)] ∧
    (applyOp (BridgeOp.timeout 7) (runOps [BridgeOp.create 7])).events =
      (runOps [BridgeOp.create 7]).events ++ [AuthEvent.timeoutEvent 7] ∧
    7 ∉ (applyOp (BridgeOp.timeout 7) (runOps [BridgeOp.create 7])).pending :=
  timeout_fail_closed (runOps [BridgeOp.create 7]) 7 (by decide)

/-! ### Inbound IPC connections and malformed prompts (C6)

Modelled from the spec (§4.4 `Created`, §7): the bridge accepts a
connection from a helper, reads a structured prompt `{kind, payload}` and,
when it is well-formed, generates a correlation id and inserts a new entry;
a malformed prompt is answered with `BadRequest` and the connection is
closed immediately, with no pending entry created. -/

/-- A raw inbound IPC message: a kind tag and an optional payload. -/
structure RawMsg where
  kind : String
  payload : Option String
  deriving DecidableEq, Repr

inductive PromptKind where
  | credential
  | hostKeyTrust
  deriving DecidableEq, Repr

/-- Modelled from the spec: prompt validation — the kind must be one of
`Credential`/`HostKeyTrust` and a payload must be present. -/
def parsePrompt (m : RawMsg) : Option (PromptKind × String) :=
  match m.payload with
  | none => none
  | some p =>
      if m.kind = "Credential" then some (PromptKind.credential, p)
      else if m.kind = "HostKeyTrust" then some (PromptKind.hostKeyTrust, p)
      else none

/-- Response sent on the helper connection for the prompt itself. -/
inductive IPCResponse where
  | badRequest
  | accepted
  deriving DecidableEq, Repr

/-- Modelled from the spec: handling one inbound helper connection. A
well-formed prompt creates a pending entry under a freshly generated
correlation id and keeps the connection open (blocked); a malformed one is
answered `BadRequest` and the connection is closed immediately. The result
is `(new state, response, connection closed?)`. -/
def handleConn (s : BridgeState) (m : RawMsg) (cid : Nat) :
    BridgeState × IPCResponse × Bool :=
  match parsePrompt m with
  | none => (s, IPCResponse.badRequest, true)
  | some _ => (applyOp (BridgeOp.create cid) s, IPCResponse.accepted, false)

/-- C6: a malformed prompt payload is answered `BadRequest` and its
connection is closed immediately; the pending table is unchanged — no entry
is created and every other pending request is untouched. -/
theorem malformed_prompt_isolated (s : BridgeState) (m : RawMsg) (cid : Nat)
    (h : parsePrompt m = none) :
    (handleConn s m cid).1 = s ∧
    (handleConn s m cid).2.1 = IPCResponse.badRequest ∧
    (handleConn s m cid).2.2 = true := by
  refine ⟨?_, ?_, ?_⟩ <;> simp [handleConn, h]

/-- Witness for C6: an unknown prompt kind arriving while request 3 is
pending leaves the table (with request 3) untouched, is answered
`BadRequest`, and gets its connection closed. -/
theorem malformed_prompt_isolated_witness :
    (handleConn (runOps [BridgeOp.create 3]) ⟨"EvilKind", some "x"⟩ 4).1 =
      runOps [BridgeOp.create 3] ∧
    (handleConn (runOps [BridgeOp.create 3]) ⟨"EvilKind", some "x"⟩ 4).2.1 =
      IPCResponse.badRequest ∧
    (handleConn (runOps [BridgeOp.create 3]) ⟨"EvilKind", some "x"⟩ 4).2.2 =
      true :=
  malformed_prompt_isolated (runOps [BridgeOp.create 3])
    ⟨"EvilKind", some "x"⟩ 4 (by decide)

/-! ## Event Aggregator

Modelled from the spec: the implementation file
(`backend/src/services/sse-aggregator.ts`) is not among the sources at
hand — only its call sites in `backend/src/index.ts` are — so the
per-context fan-out structure and its `subscribe`/`unsubscribe`/`publish`
operations and grace-period teardown are modelled from §3
"EventSubscription" and §4.3 of the design document. -/

/-- An event in a context's fan-out stream: either an upstream event from
the supervised process or a synthetic auth-broker event. -/
inductive AggEvent where
  | upstream (data : String)
  | auth (e : AuthEvent)
  deriving DecidableEq, Repr

/-- A downstream subscriber: its generated handle and its bounded delivery
queue (events in delivery order). -/
structure AggSub where
  id : Nat
  queue : List AggEvent
  deriving DecidableEq, Repr

/-- Per-context-key fan-out entry: the upstream connection, whether the
grace-period teardown is pending, and the attached downstream subscribers. -/
structure AggEntry where
  key : String
  upstreamOpen : Bool
  gracePending : Bool
  subs : List AggSub
  deriving DecidableEq, Repr

/-- Aggregator state: the handle generator and one entry per active
context key. -/
structure AggState where
  nextId : Nat
  entries : List AggEntry
  deriving DecidableEq, Repr

def AggState.empty : AggState := { nextId := 0, entries := [] }

/-- Modelled from the spec (§4.3): `subscribe(contextKey, downstream)`
registers a new sink under a generated handle; when no upstream
subscription exists for the key it opens one, otherwise it attaches to the
existing entry (cancelling any pending grace-period teardown). -/
def subscribe (k : String) (s : AggState) : AggState :=
  if s.entries.any (fun e => e.key == k) then
    { nextId := s.nextId + 1,
      entries := s.entries.map fun e =>
        if e.key == k then
          { e with subs := ⟨s.nextId, []⟩ :: e.subs, gracePending := false }
        else e }
  else
    { nextId := s.nextId + 1,
      entries := s.entries ++
        [{ key := k, upstreamOpen := true, gracePending := false,
           subs := [⟨s.nextId, []⟩] }] }

/-- Modelled from the spec (§4.3): `unsubscribe(handle)` detaches the
downstream; when it was the last one for its context key the upstream is
not torn down immediately — the entry stays, upstream open, with the
grace-period teardown pending. -/
def unsubscribe (sid : Nat) (s : AggState) : AggState :=
  { s with entries := s.entries.map fun e =>
      if e.subs.any (fun sub => sub.id == sid) then
        let subs' := e.subs.filter fun sub => sub.id ≠ sid
        if subs'.isEmpty then { e with subs := [], gracePending := true }
        else { e with subs := subs' }
      else e }

/-- Modelled from the spec (§4.3): once the grace period of a context key
elapses with still no subscriber attached, the upstream subscription is
closed and the entry removed. -/
def graceElapsed (k : String) (s : AggState) : AggState :=
  { s with entries := s.entries.filter fun e =>
      !(e.key == k && e.gracePending && e.subs.isEmpty) }

/-- The effect of `publish` on one entry: every subscriber of the published
key with room in its bounded queue receives the event at the back of its
queue; a subscriber whose queue is full is dropped. Entries of other keys
are untouched. -/
def publishEntry (cap : Nat) (k : String) (ev : AggEvent) (e : AggEntry) :
    AggEntry :=
  if e.key == k then
    { e with subs := e.subs.filterMap fun sub =>
        if sub.queue.length < cap then
          some { sub with queue := sub.queue ++ [ev] }
        else none }
  else e

/-- Modelled from the spec (§4.3): `publish(contextKey, event)` injects an
event into the context's fan-out stream, delivering to each attached
downstream queue (bounded, overflow drops the subscriber). -/
def publishE (cap : Nat) (k : String) (ev : AggEvent) (s : AggState) :
    AggState :=
  { s with entries := s.entries.map (publishEntry cap k ev) }

lemma filterMap_eq_map_of_room {α β : Type} (p : α → Prop) [DecidablePred p]
    (g : α → β) (l : List α) (h : ∀ x ∈ l, p x) :
    (l.filterMap fun x => if p x then some (g x) else none) = l.map g := by
  induction l with
  | nil => rfl
  | cons a t ih =>
      rw [List.filterMap_cons, List.map_cons,
        if_pos (h a (List.mem_cons_self a t))]
      rw [ih fun x hx => h x (List.mem_cons_of_mem a hx)]

/-- C4: publishing an event for a context key delivers it, at the back of
each delivery queue (arrival order), to every currently attached subscriber
of that key — none of whose queues is full — and entries of every other
context key are left exactly as they were. -/
theorem publish_fanout (cap : Nat) (k : String) (ev : AggEvent) (s : AggState)
    (h : ∀ e ∈ s.entries, e.key = k → ∀ sub ∈ e.subs, sub.queue.length < cap) :
    (publishE cap k ev s).entries =
      s.entries.map fun e =>
        if e.key = k then
          { e with subs := e.subs.map fun sub =>
              { sub with queue := sub.queue ++ [ev] } }
        else e := by
  simp only [publishE]
  apply List.map_congr_left
  intro e he
  by_cases hk : e.key = k
  · simp only [publishEntry, hk, beq_self_eq_true, if_true, if_pos]
    congr 1
    exact filterMap_eq_map_of_room (fun sub => sub.queue.length < cap)
      (fun sub => { sub with queue := sub.queue ++ [ev] }) e.subs
      (fun sub hsub => h e he hk sub hsub)
  · simp [publishEntry, hk]

/-- Witness for C4: an event published for key "a" reaches both of its
subscribers in queue order and leaves the "b" entry untouched. -/
theorem publish_fanout_witness :
    (publishE 8 "a" (AggEvent.upstream "x")
        ⟨2, [⟨"a", true, false, [⟨0, []⟩, ⟨1, []⟩]⟩,
             ⟨"b", true, false, [⟨2, []⟩]⟩]⟩).entries =
      [⟨"a", true, false,
          [⟨0, [AggEvent.upstream "x"]⟩, ⟨1, [AggEvent.upstream "x"]⟩]⟩,
        ⟨"b", true, false, [⟨2, []⟩]⟩] := by
  have h := publish_fanout 8 "a" (AggEvent.upstream "x")
    ⟨2, [⟨"a", true, false, [⟨0, []⟩, ⟨1, []⟩]⟩,
         ⟨"b", true, false, [⟨2, []⟩]⟩]⟩ (by decide)
  rw [h]
  decide

/-- C7: per-subscriber queues are bounded and a slow subscriber never blocks
the others: publishing keeps every queue within the bound; a subscriber of
the published key whose queue is full is dropped — and only that
subscriber: every other subscriber of the key still receives the event, and
entries of other keys are untouched — and a resubscribe restores delivery
(the fresh sink receives the next published event). -/
theorem slow_subscriber_dropped (cap : Nat) (k : String) (ev : AggEvent)
    (s : AggState) (hcap : 0 < cap)
    (hb : ∀ e ∈ s.entries, ∀ sub ∈ e.subs, sub.queue.length ≤ cap)
    (hids : ∀ e ∈ s.entries, (e.subs.map AggSub.id).Nodup) :
    (∀ e ∈ (publishE cap k ev s).entries, ∀ sub ∈ e.subs,
        sub.queue.length ≤ cap) ∧
    (∀ e ∈ s.entries, publishEntry cap k ev e ∈ (publishE cap k ev s).entries) ∧
    (∀ e ∈ s.entries, e.key ≠ k → publishEntry cap k ev e = e) ∧
    (∀ e ∈ s.entries, e.key = k → ∀ sub ∈ e.subs,
      (sub.queue.length < cap →
        ({ id := sub.id, queue := sub.queue ++ [ev] } : AggSub) ∈
          (publishEntry cap k ev e).subs) ∧
      (cap ≤ sub.queue.length →
        ∀ sub' ∈ (publishEntry cap k ev e).subs, sub'.id ≠ sub.id)) ∧
    (∀ t : AggState, (∃ e ∈ t.entries, e.key = k) →
      ∃ e' ∈ (publishE cap k ev (subscribe k t)).entries,
        e'.key = k ∧ (⟨t.nextId, [ev]⟩ : AggSub) ∈ e'.subs) := by
  refine ⟨?_, ?_, ?_, ?_, ?_⟩
  · intro e' he' sub hsub
    simp only [publishE, List.mem_map] at he'
    obtain ⟨e, he, rfl⟩ := he'
    by_cases hk : e.key = k
    · simp only [publishEntry, hk, beq_self_eq_true, if_true] at hsub
      rw [List.mem_filterMap] at hsub
      obtain ⟨sub₀, _, hf⟩ := hsub
      by_cases hlt : sub₀.queue.length < cap
      · rw [if_pos hlt] at hf
        obtain rfl := Option.some.inj hf
        simp only [List.length_append, List.length_cons, List.length_nil]
        omega
      · rw [if_neg hlt] at hf
        exact absurd hf (by simp)
    · have heq : publishEntry cap k ev e = e := by simp [publishEntry, hk]
      rw [heq] at hsub
      exact hb e he sub hsub
  · intro e he
    exact List.mem_map_of_mem (publishEntry cap k ev) he
  · intro e _ hk
    simp [publishEntry, hk]
  · intro e he hk sub hsub
    constructor
    · intro hlt
      simp only [publishEntry, hk, beq_self_eq_true, if_true]
      rw [List.mem_filterMap]
      exact ⟨sub, hsub, by rw [if_pos hlt]⟩
    · intro hfull sub' hsub'
      simp only [publishEntry, hk, beq_self_eq_true, if_true] at hsub'
      rw [List.mem_filterMap] at hsub'
      obtain ⟨sub₀, hsub₀, hf⟩ := hsub'
      by_cases hlt : sub₀.queue.length < cap
      · rw [if_pos hlt] at hf
        obtain rfl := Option.some.inj hf
        intro hid
        have : sub₀ = sub :=
          List.inj_on_of_nodup_map (hids e he) hsub₀ hsub hid
        subst this
        omega
      · rw [if_neg hlt] at hf
        exact absurd hf (by simp)
  · rintro t ⟨e0, he0, hk0⟩
    have hany : t.entries.any (fun e => e.key == k) = true := by
      rw [List.any_eq_true]
      exact ⟨e0, he0, by simp [hk0]⟩
    have hsubfn :
        (subscribe k t).entries = t.entries.map fun e =>
          if e.key == k then
            { e with subs := (⟨t.nextId, []⟩ : AggSub) :: e.subs,
                     gracePending := false }
          else e := by
      simp only [subscribe, hany, if_true]
    set e0' : AggEntry :=
      { e0 with subs := (⟨t.nextId, []⟩ : AggSub) :: e0.subs,
                gracePending := false } with he0'def
    have he0'mem : e0' ∈ (subscribe k t).entries := by
      rw [hsubfn]
      have : (if e0.key == k then
          { e0 with subs := (⟨t.nextId, []⟩ : AggSub) :: e0.subs,
                    gracePending := false }
        else e0) = e0' := by rw [if_pos (by simp [hk0])]
      rw [← this]
      exact List.mem_map_of_mem _ he0
    refine ⟨publishEntry cap k ev e0', List.mem_map_of_mem _ he0'mem, ?_, ?_⟩
    · simp [publishEntry, he0'def, hk0]
    · simp only [publishEntry, he0'def, hk0, beq_self_eq_true, if_true]
      rw [List.mem_filterMap]
      refine ⟨⟨t.nextId, []⟩, List.mem_cons_self _ _, ?_⟩
      rw [if_pos (by simpa using hcap)]
      simp

/-- Witness for C7 at capacity 1: subscriber 0's queue is full, so the next
event reaches subscriber 1 while subscriber 0 is dropped (its handle is
distinct from the surviving one). -/
theorem slow_subscriber_dropped_witness :
    ({ id := 1, queue := [AggEvent.upstream "x"] } : AggSub) ∈
      (publishEntry 1 "a" (AggEvent.upstream "x")
        { key := "a", upstreamOpen := true, gracePending := false,
          subs := [⟨0, [AggEvent.upstream "0"]⟩, ⟨1, []⟩] }).subs ∧
    ({ id := 1, queue := [AggEvent.upstream "x"] } : AggSub).id ≠ (0 : Nat) := by
  have T := slow_subscriber_dropped 1 "a" (AggEvent.upstream "x")
    ⟨2, [{ key := "a", upstreamOpen := true, gracePending := false,
           subs := [⟨0, [AggEvent.upstream "0"]⟩, ⟨1, []⟩] }]⟩
    (by decide) (by decide) (by decide)
  have hper := T.2.2.2.1
    { key := "a", upstreamOpen := true, gracePending := false,
      subs := [⟨0, [AggEvent.upstream "0"]⟩, ⟨1, []⟩] }
    (by decide) rfl
  have hmem := (hper ⟨1, []⟩ (by decide)).1 (by decide)
  refine ⟨hmem, ?_⟩
  exact (hper ⟨0, [AggEvent.upstream "0"]⟩ (by decide)).2 (by decide)
    { id := 1, queue := [AggEvent.upstream "x"] } hmem

/-! ### One upstream per context key and grace-period teardown (C5) -/

/-- A freshly attached subscriber with handle `i`. -/
def mkSub (i : Nat) : AggSub := ⟨i, []⟩

/-- Attach `n` downstream sinks for context key `k`. -/
def subscribeN (k : String) : Nat → AggState → AggState
  | 0, s => s
  | n + 1, s => subscribe k (subscribeN k n s)

/-- Detach the sinks with handles `0, …, m-1`. -/
def unsubRange (m : Nat) (s : AggState) : AggState :=
  (List.range m).foldl (fun st i => unsubscribe i st) s

lemma subscribeN_spec (k : String) :
    ∀ n, 1 ≤ n →
      subscribeN k n AggState.empty =
        ⟨n, [⟨k, true, false, ((List.range' 0 n).reverse).map mkSub⟩]⟩ := by
  intro n
  induction n with
  | zero => omega
  | succ m ih =>
      intro _
      by_cases hm : 1 ≤ m
      · rw [show m + 1 = m + 1 from rfl, subscribeN, ih hm]
        rw [List.range'_1_concat, List.reverse_append]
        simp only [List.reverse_cons, List.reverse_nil, List.nil_append,
          List.singleton_append, List.map_cons, Nat.zero_add]
        simp [subscribe, mkSub]
      · have hm0 : m = 0 := by omega
        subst hm0
        rfl

lemma unsubRange_spec (k : String) (N : Nat) :
    ∀ m, m ≤ N - 1 → 1 ≤ N →
      unsubRange m (subscribeN k N AggState.empty) =
        ⟨N, [⟨k, true, false, ((List.range' m (N - m)).reverse).map mkSub⟩]⟩ := by
  intro m
  induction m with
  | zero =>
      intro _ hN
      rw [show unsubRange 0 (subscribeN k N AggState.empty) =
            subscribeN k N AggState.empty from rfl]
      simpa using subscribeN_spec k N hN
  | succ m ih =>
      intro hm hN
      have hstep : unsubRange (m + 1) (subscribeN k N AggState.empty) =
          unsubscribe m (unsubRange m (subscribeN k N AggState.empty)) := by
        rw [unsubRange, unsubRange, List.range_succ, List.foldl_append]
        rfl
      rw [hstep, ih (by omega) hN]
      have hNm : N - m = (N - (m + 1)) + 1 := by omega
      have hpos : 1 ≤ N - (m + 1) := by omega
      rw [hNm, List.range'_succ, List.reverse_cons, List.map_append]
      simp only [List.map_cons, List.map_nil]
      rw [unsubscribe]
      have hany : ((((List.range' (m + 1) (N - (m + 1))).reverse).map mkSub ++
          [mkSub m]).any fun sub => sub.id == m) = true := by
        rw [List.any_eq_true]
        exact ⟨mkSub m, by simp, by simp [mkSub]⟩
      have hfilter : ((((List.range' (m + 1) (N - (m + 1))).reverse).map mkSub ++
          [mkSub m]).filter fun sub => sub.id ≠ m) =
          ((List.range' (m + 1) (N - (m + 1))).reverse).map mkSub := by
        rw [List.filter_append]
        have h1 : (([mkSub m] : List AggSub).filter fun sub => sub.id ≠ m) =
            [] := by simp [mkSub]
        have h2 : ((((List.range' (m + 1) (N - (m + 1))).reverse).map
            mkSub).filter fun sub => sub.id ≠ m) =
            ((List.range' (m + 1) (N - (m + 1))).reverse).map mkSub := by
          rw [List.filter_eq_self]
          intro a ha
          simp only [List.mem_map, List.mem_reverse] at ha
          obtain ⟨i, hi, rfl⟩ := ha
          rw [List.mem_range'_1] at hi
          simp only [mkSub, ne_eq, decide_eq_true_eq]
          omega
        rw [h1, h2, List.append_nil]
      have hnonempty :
          ((((List.range' (m + 1) (N - (m + 1))).reverse).map mkSub).isEmpty) =
            false := by
        rw [List.isEmpty_eq_false_iff_exists_mem]
        refine ⟨mkSub (m + 1), ?_⟩
        simp only [List.mem_map, List.mem_reverse]
        exact ⟨m + 1, by rw [List.mem_range'_1]; omega, rfl⟩
      simp only [List.map_cons, List.map_nil, hany, if_true, hfilter,
        hnonempty]
      simp [hfilter, hnonempty]

/-- C5: for a context key, subscribing `N` sinks and then unsubscribing
`N − 1` of them leaves exactly one fan-out entry with its upstream open and
one subscriber attached; unsubscribing the last subscriber leaves the
upstream open with the grace-period teardown pending rather than closing it
immediately, and only once the grace period elapses is the upstream closed
and the entry removed. -/
theorem one_upstream_per_key (k : String) (N : Nat) (hN : 1 ≤ N) :
    unsubRange (N - 1) (subscribeN k N AggState.empty) =
      ⟨N, [⟨k, true, false, [⟨N - 1, []⟩]⟩]⟩ ∧
    unsubscribe (N - 1) (unsubRange (N - 1) (subscribeN k N AggState.empty)) =
      ⟨N, [⟨k, true, true, []⟩]⟩ ∧
    (graceElapsed k (unsubscribe (N - 1)
        (unsubRange (N - 1) (subscribeN k N AggState.empty)))).entries = [] := by
  have h1 : unsubRange (N - 1) (subscribeN k N AggState.empty) =
      ⟨N, [⟨k, true, false, [⟨N - 1, []⟩]⟩]⟩ := by
    rw [unsubRange_spec k N (N - 1) le_rfl hN]
    have : N - (N - 1) = 1 := by omega
    rw [this]
    rfl
  have h2 : unsubscribe (N - 1)
      (unsubRange (N - 1) (subscribeN k N AggState.empty)) =
      ⟨N, [⟨k, true, true, []⟩]⟩ := by
    rw [h1, unsubscribe]
    simp
  refine ⟨h1, h2, ?_⟩
  rw [h2, graceElapsed]
  simp

/-- Witness for C5 at `N = 3`: three subscriptions, two unsubscriptions,
then the last one and the grace period. -/
theorem one_upstream_per_key_witness :
    unsubRange 2 (subscribeN "ctx" 3 AggState.empty) =
      ⟨3, [⟨"ctx", true, false, [⟨2, []⟩]⟩]⟩ ∧
    unsubscribe 2 (unsubRange 2 (subscribeN "ctx" 3 AggState.empty)) =
      ⟨3, [⟨"ctx", true, true, []⟩]⟩ ∧
    (graceElapsed "ctx" (unsubscribe 2
        (unsubRange 2 (subscribeN "ctx" 3 AggState.empty)))).entries = [] :=
  one_upstream_per_key "ctx" 3 (by decide)

end OpencodeManager
